import Mathlib

/-!
Verification of the BHMM Gibbs sampler (`src/bhmm/bhmm_class.py`) and the
initial-model dispatcher (`src/bhmm/init/api.py`) against the repository's
specification.

The numeric core (`BHMM._sampleHiddenStateTrajectory`) is embedded over the
real numbers: each numpy/scipy operation on log-probabilities becomes the
corresponding operation on `ℝ`, and `scipy.misc.logsumexp` becomes its
literal algorithm (subtract the running maximum, exponentiate, sum, take the
log, add the maximum back).  The global `np.random` generator is embedded as
an explicit state `G` threaded through every `np.random.choice` call;
`choice g p` returns the drawn index together with the successor generator
state.

IEEE special values matter for one claim only (the degenerate-likelihood
path); for that claim the float semantics of `-inf`/`NaN` propagation is
embedded by the inductive type `FP` below, whose arithmetic follows the
IEEE-754 rules numpy implements for those values.

The Gibbs orchestration (`BHMM.sample`, `BHMM._update` and its three
substeps) is embedded with the external collaborators (per-trajectory FFBS
draw, output-model parameter resampling, reversible transition-matrix
sampler) as function parameters, and `raise` embedded as `Except.error`.
`copy.deepcopy` produces an object graph sharing nothing with the live
model, so a snapshot is embedded as the model value itself.
-/

namespace BHMMSpec

noncomputable section FFBS

/-- `numpy` maximum of the entries `v 0 .. v k` of a vector
(`a.max()` for a vector of length `k+1`). -/
def npmax (v : ℕ → ℝ) : ℕ → ℝ
  | 0 => v 0
  | k + 1 => max (npmax v k) (v (k + 1))

/-- `scipy.misc.logsumexp` on the length-`n` vector `v`, exactly as the
library computes it: `a_max = a.max(); out = log(sum(exp(a - a_max)));
out += a_max`. -/
def logsumexp (n : ℕ) (v : ℕ → ℝ) : ℝ :=
  npmax v (n - 1) + Real.log (∑ i ∈ Finset.range n, Real.exp (v i - npmax v (n - 1)))

/-- The max-shifted (stable) log-sum-exp equals the plain `log ∘ sum ∘ exp`
on a nonempty vector. -/
lemma logsumexp_eq (n : ℕ) (hn : 0 < n) (v : ℕ → ℝ) :
    logsumexp n v = Real.log (∑ i ∈ Finset.range n, Real.exp (v i)) := by
  unfold logsumexp
  set m := npmax v (n - 1) with hm
  have hsum : (∑ i ∈ Finset.range n, Real.exp (v i - m))
      = (∑ i ∈ Finset.range n, Real.exp (v i)) * Real.exp (-m) := by
    rw [Finset.sum_mul]
    refine Finset.sum_congr rfl fun i _ => ?_
    rw [← Real.exp_add]
    ring_nf
  have hpos : 0 < ∑ i ∈ Finset.range n, Real.exp (v i) := by
    refine Finset.sum_pos (fun i _ => Real.exp_pos _) ?_
    exact Finset.nonempty_range_iff.mpr (by omega)
  rw [hsum, Real.log_mul (ne_of_gt hpos) (ne_of_gt (Real.exp_pos _)), Real.log_exp]
  ring

variable {α : Type} {G : Type}

/-- Columns of the forward matrix `log_alpha_it` of
`BHMM._sampleHiddenStateTrajectory`: `log_alpha_col ... t i` is
`log_alpha_it[i, t]`.  Column `0` is `logPi[i] + log_emission(i, o_t[0])`;
column `t+1` is `logsumexp(log_alpha_it[:,t] + logTij[:,j]) +
log_emission(j, o_t[t+1])`, with `logsumexp` the scipy routine above.
`logB i x` embeds `model.log_emission_probability(i, x)` (the external
output-model capability) and `o` the observation sequence `o_t`. -/
def log_alpha_col (nstates : ℕ) (logPi : ℕ → ℝ) (logTij : ℕ → ℕ → ℝ)
    (o : ℕ → α) (logB : ℕ → α → ℝ) : ℕ → ℕ → ℝ
  | 0, i => logPi i + logB i (o 0)
  | t + 1, j =>
      logsumexp nstates (fun k => log_alpha_col nstates logPi logTij o logB t k + logTij k j)
        + logB j (o (t + 1))

/-- `log_alpha_it i t` = the entry `log_alpha_it[i, t]` computed by the
forward part of `BHMM._sampleHiddenStateTrajectory`. -/
def log_alpha_it (nstates : ℕ) (logPi : ℕ → ℝ) (logTij : ℕ → ℕ → ℝ)
    (o : ℕ → α) (logB : ℕ → α → ℝ) (i t : ℕ) : ℝ :=
  log_alpha_col nstates logPi logTij o logB t i

/-- One iteration of the backward loop of `BHMM._sampleHiddenStateTrajectory`
at time `t`: `log_p_i = log_alpha_it[:,t] + logTij[:, s_t[t+1]]`,
`p_i = exp(log_p_i - logsumexp(log_p_i))`, then one `np.random.choice` draw
writes `s_t[t]` and advances the generator. -/
def bwStep (nstates : ℕ) (logTij : ℕ → ℕ → ℝ) (choice : G → (ℕ → ℝ) → ℕ × G)
    (la : ℕ → ℕ → ℝ) (sg : (ℕ → ℕ) × G) (t : ℕ) : (ℕ → ℕ) × G :=
  let lp : ℕ → ℝ := fun i => la i t + logTij i (sg.1 (t + 1))
  let p : ℕ → ℝ := fun i => Real.exp (lp i - logsumexp nstates lp)
  let c := choice sg.2 p
  (Function.update sg.1 t c.1, c.2)

/-- `BHMM._sampleHiddenStateTrajectory` on an observation sequence of length
`T`: forward filtering via `log_alpha_col`, then the final-state draw from
`exp(log_alpha_it[:,T-1] - logsumexp(log_alpha_it[:,T-1]))`, then the
backward loop `for t in range(T-2, -1, -1)` (the list
`(List.range (T-1)).reverse`), each step a `bwStep`.  `s_t` starts as
`np.zeros([T])`, embedded as the constant-zero index map. -/
def sampleHiddenStateTrajectory (nstates : ℕ) (logPi : ℕ → ℝ) (logTij : ℕ → ℕ → ℝ)
    (o : ℕ → α) (logB : ℕ → α → ℝ) (choice : G → (ℕ → ℝ) → ℕ × G)
    (T : ℕ) (g : G) : (ℕ → ℕ) × G :=
  let la : ℕ → ℕ → ℝ := fun i t => log_alpha_col nstates logPi logTij o logB t i
  let pT : ℕ → ℝ :=
    fun i => Real.exp (la i (T - 1) - logsumexp nstates (fun k => la k (T - 1)))
  let c := choice g pT
  (List.range (T - 1)).reverse.foldl (bwStep nstates logTij choice la)
    (Function.update (fun _ => 0) (T - 1) c.1, c.2)

end FFBS

/-- Claim C3: for every observation sequence of length `T ≥ 1` the forward
pass computes `log_alpha[i,0] = logPi[i] + log_emission(i, o[0])` and, for
every `t+1` and state `j`,
`log_alpha[j,t+1] = logsumexp_k(log_alpha[k,t] + logTij[k,j]) +
log_emission(j, o[t+1])`, where the code's max-shifted stable log-sum-exp
agrees with the plain `log ∘ sum ∘ exp` of the specification (stated with
`nstates = m+1`, since the model has at least one state). -/
theorem c3_forward_recursion {α : Type} (m : ℕ) (logPi : ℕ → ℝ)
    (logTij : ℕ → ℕ → ℝ) (o : ℕ → α) (logB : ℕ → α → ℝ) :
    (∀ i, log_alpha_it (m + 1) logPi logTij o logB i 0 = logPi i + logB i (o 0))
    ∧ (∀ t j, log_alpha_it (m + 1) logPi logTij o logB j (t + 1)
        = Real.log (∑ k ∈ Finset.range (m + 1),
            Real.exp (log_alpha_it (m + 1) logPi logTij o logB k t + logTij k j))
          + logB j (o (t + 1))) := by
  constructor
  · intro i; rfl
  · intro t j
    show logsumexp (m + 1) (fun k => log_alpha_col (m + 1) logPi logTij o logB t k + logTij k j)
          + logB j (o (t + 1)) = _
    rw [logsumexp_eq (m + 1) (Nat.succ_pos m)]
    rfl

noncomputable section BackwardSpec

variable {α : Type} {G : Type}

/-- Spec-side categorical draw at time `t` (spec §4.1, backward sampling
pass): `log_p[i] = log_alpha[i,t] + logTij[i, snext]`, normalised by
subtracting the plain log-sum-exp, exponentiated, then drawn. -/
def specDraw (nstates : ℕ) (logTij : ℕ → ℕ → ℝ) (choice : G → (ℕ → ℝ) → ℕ × G)
    (la : ℕ → ℕ → ℝ) (t snext : ℕ) (g : G) : ℕ × G :=
  choice g (fun i => Real.exp ((la i t + logTij i snext)
    - Real.log (∑ k ∈ Finset.range nstates, Real.exp (la k t + logTij k snext))))

/-- Spec-side backward recursion, written from the spec's words: for
`t = T-2` down to `0`, draw `s[t]` from the categorical distribution given
the already-sampled `s[t+1]`; `specBw ... t snext g` samples times
`t, t-1, ..., 0` given `s[t+1] = snext`, returning the trajectory (zero
outside `[0,t]`) and the final generator state. -/
def specBw (nstates : ℕ) (logTij : ℕ → ℕ → ℝ) (choice : G → (ℕ → ℝ) → ℕ × G)
    (la : ℕ → ℕ → ℝ) : ℕ → ℕ → G → (ℕ → ℕ) × G
  | 0, snext, g =>
      let c := specDraw nstates logTij choice la 0 snext g
      (Function.update (fun _ => 0) 0 c.1, c.2)
  | t + 1, snext, g =>
      let c := specDraw nstates logTij choice la (t + 1) snext g
      let r := specBw nstates logTij choice la t c.1 c.2
      (Function.update r.1 (t + 1) c.1, r.2)

/-- Spec-side FFBS (spec §4.1): draw `s[T-1]` from the categorical
distribution proportional to
`exp(log_alpha[:,T-1] - logsumexp(log_alpha[:,T-1]))`, then run the backward
recursion from `t = T-2` down to `0`. -/
def ffbsSpec (nstates : ℕ) (logPi : ℕ → ℝ) (logTij : ℕ → ℕ → ℝ)
    (o : ℕ → α) (logB : ℕ → α → ℝ) (choice : G → (ℕ → ℝ) → ℕ × G)
    (T : ℕ) (g : G) : (ℕ → ℕ) × G :=
  let la : ℕ → ℕ → ℝ := fun i t => log_alpha_col nstates logPi logTij o logB t i
  let pT : ℕ → ℝ := fun i => Real.exp (la i (T - 1)
    - Real.log (∑ k ∈ Finset.range nstates, Real.exp (la k (T - 1))))
  let c := choice g pT
  match T with
  | 0 => (Function.update (fun _ => 0) 0 c.1, c.2)
  | 1 => (Function.update (fun _ => 0) 0 c.1, c.2)
  | t + 2 =>
      let r := specBw nstates logTij choice la t c.1 c.2
      (Function.update r.1 (t + 1) c.1, r.2)

/-- The probability vector the code builds with the stable `logsumexp`
equals the spec's plainly normalised one (nonempty state space). -/
lemma pvec_eq (m : ℕ) (lp : ℕ → ℝ) :
    (fun i => Real.exp (lp i - logsumexp (m + 1) lp))
      = fun i => Real.exp (lp i - Real.log (∑ k ∈ Finset.range (m + 1), Real.exp (lp k))) := by
  funext i
  rw [logsumexp_eq (m + 1) (Nat.succ_pos m)]

/-- `specBw` leaves every slot above `t` at its `np.zeros` value. -/
lemma specBw_high (nstates : ℕ) (logTij : ℕ → ℕ → ℝ) (choice : G → (ℕ → ℝ) → ℕ × G)
    (la : ℕ → ℕ → ℝ) :
    ∀ (t snext : ℕ) (g : G) (u : ℕ), t < u →
      (specBw nstates logTij choice la t snext g).1 u = 0 := by
  intro t
  induction t with
  | zero =>
      intro snext g u hu
      simp only [specBw]
      rw [Function.update_noteq (by omega)]
  | succ t ih =>
      intro snext g u hu
      simp only [specBw]
      rw [Function.update_noteq (by omega)]
      exact ih _ _ u (by omega)

/-- The backward `for t in range(T-2, -1, -1)` loop, folded as in the code,
computes exactly the spec-side backward recursion: the final generator
states agree, the sampled slots `0..k` agree, and slots above `k` keep
their initial values. -/
lemma bwLoop_eq (m : ℕ) (logTij : ℕ → ℕ → ℝ) (choice : G → (ℕ → ℝ) → ℕ × G)
    (la : ℕ → ℕ → ℝ) :
    ∀ (k : ℕ) (s : ℕ → ℕ) (g : G),
      ((List.range (k + 1)).reverse.foldl (bwStep (m + 1) logTij choice la) (s, g)).2
          = (specBw (m + 1) logTij choice la k (s (k + 1)) g).2
      ∧ ∀ u, ((List.range (k + 1)).reverse.foldl (bwStep (m + 1) logTij choice la) (s, g)).1 u
          = if u ≤ k then (specBw (m + 1) logTij choice la k (s (k + 1)) g).1 u else s u := by
  intro k
  induction k with
  | zero =>
      intro s g
      have hr : (List.range (0 + 1)).reverse = [0] := by decide
      rw [hr]
      simp only [List.foldl_cons, List.foldl_nil, bwStep, specBw, specDraw]
      have hc : (fun i => Real.exp (la i 0 + logTij i (s (0 + 1))
            - logsumexp (m + 1) fun j => la j 0 + logTij j (s (0 + 1))))
          = fun i => Real.exp (la i 0 + logTij i (s (0 + 1))
            - Real.log (∑ j ∈ Finset.range (m + 1), Real.exp (la j 0 + logTij j (s (0 + 1))))) :=
        pvec_eq m _
      rw [hc]
      refine ⟨rfl, fun u => ?_⟩
      by_cases hu : u = 0
      · subst hu
        rw [if_pos (le_refl 0)]
        rfl
      · rw [if_neg (fun h => hu (Nat.le_zero.mp h))]
        exact Function.update_noteq hu _ s
  | succ k ih =>
      intro s g
      have hlist : (List.range (k + 2)).reverse = (k + 1) :: (List.range (k + 1)).reverse := by
        rw [List.range_succ, List.reverse_append]
        rfl
      have hc : (fun i => Real.exp (la i (k + 1) + logTij i (s (k + 2))
            - logsumexp (m + 1) fun j => la j (k + 1) + logTij j (s (k + 2))))
          = fun i => Real.exp (la i (k + 1) + logTij i (s (k + 2))
            - Real.log (∑ j ∈ Finset.range (m + 1),
                Real.exp (la j (k + 1) + logTij j (s (k + 2))))) :=
        pvec_eq m _
      rw [hlist]
      simp only [List.foldl_cons, bwStep, specBw, specDraw]
      rw [hc]
      set c1 := choice g (fun i => Real.exp (la i (k + 1) + logTij i (s (k + 2))
        - Real.log (∑ j ∈ Finset.range (m + 1),
            Real.exp (la j (k + 1) + logTij j (s (k + 2)))))) with hc1
      obtain ⟨ih2, ih1⟩ := ih (Function.update s (k + 1) c1.1) c1.2
      rw [Function.update_same] at ih2 ih1
      refine ⟨ih2, fun u => ?_⟩
      rcases Nat.lt_trichotomy u (k + 1) with hu | hu | hu
      · rw [ih1 u, if_pos (show u ≤ k from by omega),
          if_pos (show u ≤ k + 1 from by omega)]
        exact (Function.update_noteq (show u ≠ k + 1 from by omega) c1.1
          (specBw (m + 1) logTij choice la k c1.1 c1.2).1).symm
      · subst hu
        rw [ih1 (k + 1), if_neg (show ¬ k + 1 ≤ k from by omega), Function.update_same,
          if_pos (le_refl (k + 1))]
        exact (Function.update_same (k + 1) c1.1
          (specBw (m + 1) logTij choice la k c1.1 c1.2).1).symm
      · rw [ih1 u, if_neg (show ¬ u ≤ k from by omega),
          if_neg (show ¬ u ≤ k + 1 from by omega)]
        exact Function.update_noteq (show u ≠ k + 1 from by omega) c1.1 s

/-- `rfl` unfolding of the implementation at a positive length `k + 1`:
forward columns, the final-state draw from the normalised (stable
`logsumexp`) last column, then the fold over `range(T-2, -1, -1)`. -/
lemma shst_succ (nstates : ℕ) (logPi : ℕ → ℝ) (logTij : ℕ → ℕ → ℝ)
    (o : ℕ → α) (logB : ℕ → α → ℝ) (choice : G → (ℕ → ℝ) → ℕ × G)
    (k : ℕ) (g : G) :
    sampleHiddenStateTrajectory nstates logPi logTij o logB choice (k + 1) g
      = (List.range k).reverse.foldl
          (bwStep nstates logTij choice
            (fun i t => log_alpha_col nstates logPi logTij o logB t i))
          (Function.update (fun _ => 0) k
            (choice g (fun i => Real.exp (log_alpha_col nstates logPi logTij o logB k i
              - logsumexp nstates fun j => log_alpha_col nstates logPi logTij o logB k j))).1,
           (choice g (fun i => Real.exp (log_alpha_col nstates logPi logTij o logB k i
              - logsumexp nstates fun j => log_alpha_col nstates logPi logTij o logB k j))).2) :=
  rfl

/-- `rfl` unfolding of the spec-side sampler at length 1. -/
lemma ffbsSpec_one (nstates : ℕ) (logPi : ℕ → ℝ) (logTij : ℕ → ℕ → ℝ)
    (o : ℕ → α) (logB : ℕ → α → ℝ) (choice : G → (ℕ → ℝ) → ℕ × G) (g : G) :
    ffbsSpec nstates logPi logTij o logB choice 1 g
      = (Function.update (fun _ => 0) 0
          (choice g (fun i => Real.exp (log_alpha_col nstates logPi logTij o logB 0 i
            - Real.log (∑ j ∈ Finset.range nstates,
                Real.exp (log_alpha_col nstates logPi logTij o logB 0 j))))).1,
         (choice g (fun i => Real.exp (log_alpha_col nstates logPi logTij o logB 0 i
            - Real.log (∑ j ∈ Finset.range nstates,
                Real.exp (log_alpha_col nstates logPi logTij o logB 0 j))))).2) :=
  rfl

/-- `rfl` unfolding of the spec-side sampler at length `k + 2`. -/
lemma ffbsSpec_succ (nstates : ℕ) (logPi : ℕ → ℝ) (logTij : ℕ → ℕ → ℝ)
    (o : ℕ → α) (logB : ℕ → α → ℝ) (choice : G → (ℕ → ℝ) → ℕ × G)
    (k : ℕ) (g : G) :
    ffbsSpec nstates logPi logTij o logB choice (k + 2) g
      = (Function.update
          (specBw nstates logTij choice
            (fun i t => log_alpha_col nstates logPi logTij o logB t i) k
            (choice g (fun i => Real.exp (log_alpha_col nstates logPi logTij o logB (k + 1) i
              - Real.log (∑ j ∈ Finset.range nstates,
                  Real.exp (log_alpha_col nstates logPi logTij o logB (k + 1) j))))).1
            (choice g (fun i => Real.exp (log_alpha_col nstates logPi logTij o logB (k + 1) i
              - Real.log (∑ j ∈ Finset.range nstates,
                  Real.exp (log_alpha_col nstates logPi logTij o logB (k + 1) j))))).2).1
          (k + 1)
          (choice g (fun i => Real.exp (log_alpha_col nstates logPi logTij o logB (k + 1) i
            - Real.log (∑ j ∈ Finset.range nstates,
                Real.exp (log_alpha_col nstates logPi logTij o logB (k + 1) j))))).1,
         (specBw nstates logTij choice
            (fun i t => log_alpha_col nstates logPi logTij o logB t i) k
            (choice g (fun i => Real.exp (log_alpha_col nstates logPi logTij o logB (k + 1) i
              - Real.log (∑ j ∈ Finset.range nstates,
                  Real.exp (log_alpha_col nstates logPi logTij o logB (k + 1) j))))).1
            (choice g (fun i => Real.exp (log_alpha_col nstates logPi logTij o logB (k + 1) i
              - Real.log (∑ j ∈ Finset.range nstates,
                  Real.exp (log_alpha_col nstates logPi logTij o logB (k + 1) j))))).2).2) :=
  rfl

end BackwardSpec

/-- Claim C4: the backward pass of `BHMM._sampleHiddenStateTrajectory` draws
`s[T-1]` from the categorical distribution proportional to
`exp(log_alpha[:,T-1] - logsumexp(log_alpha[:,T-1]))` and, for `t` from
`T-2` down to `0`, draws `s[t]` from the distribution obtained by
normalising `log_p[i] = log_alpha[i,t] + logTij[i, s[t+1]]` via log-sum-exp
subtraction and exponentiation: the implementation (array updates in a
reversed-range loop, stable `logsumexp`) equals the spec-side sampler
`ffbsSpec` (stated for `nstates = m+1` states and length `T1+1`). -/
theorem c4_backward_sampling {α G : Type} (m : ℕ) (logPi : ℕ → ℝ)
    (logTij : ℕ → ℕ → ℝ) (o : ℕ → α) (logB : ℕ → α → ℝ)
    (choice : G → (ℕ → ℝ) → ℕ × G) (T1 : ℕ) (g : G) :
    sampleHiddenStateTrajectory (m + 1) logPi logTij o logB choice (T1 + 1) g
      = ffbsSpec (m + 1) logPi logTij o logB choice (T1 + 1) g := by
  cases T1 with
  | zero =>
      rw [shst_succ, ffbsSpec_one]
      simp only [List.range_zero, List.reverse_nil, List.foldl_nil]
      have hp : (fun i => Real.exp (log_alpha_col (m + 1) logPi logTij o logB 0 i
            - logsumexp (m + 1) fun j => log_alpha_col (m + 1) logPi logTij o logB 0 j))
          = fun i => Real.exp (log_alpha_col (m + 1) logPi logTij o logB 0 i
            - Real.log (∑ j ∈ Finset.range (m + 1),
                Real.exp (log_alpha_col (m + 1) logPi logTij o logB 0 j))) := pvec_eq m _
      rw [hp]
  | succ k =>
      rw [shst_succ, ffbsSpec_succ]
      have hp : (fun i => Real.exp (log_alpha_col (m + 1) logPi logTij o logB (k + 1) i
            - logsumexp (m + 1) fun j => log_alpha_col (m + 1) logPi logTij o logB (k + 1) j))
          = fun i => Real.exp (log_alpha_col (m + 1) logPi logTij o logB (k + 1) i
            - Real.log (∑ j ∈ Finset.range (m + 1),
                Real.exp (log_alpha_col (m + 1) logPi logTij o logB (k + 1) j))) := pvec_eq m _
      rw [hp]
      set c0 := choice g (fun i => Real.exp (log_alpha_col (m + 1) logPi logTij o logB (k + 1) i
        - Real.log (∑ j ∈ Finset.range (m + 1),
            Real.exp (log_alpha_col (m + 1) logPi logTij o logB (k + 1) j)))) with hc0
      obtain ⟨h2, h1⟩ := bwLoop_eq m logTij choice
        (fun i t => log_alpha_col (m + 1) logPi logTij o logB t i) k
        (Function.update (fun _ => 0) (k + 1) c0.1) c0.2
      rw [Function.update_same] at h2 h1
      refine Prod.ext_iff.mpr ⟨funext fun u => ?_, h2⟩
      rw [h1 u]
      rcases Nat.lt_trichotomy u (k + 1) with hu | hu | hu
      · rw [if_pos (show u ≤ k from by omega)]
        exact (Function.update_noteq (show u ≠ k + 1 from by omega) c0.1
          (specBw (m + 1) logTij choice
            (fun i t => log_alpha_col (m + 1) logPi logTij o logB t i) k c0.1 c0.2).1).symm
      · subst hu
        rw [if_neg (show ¬ k + 1 ≤ k from by omega), Function.update_same]
        exact (Function.update_same (k + 1) c0.1
          (specBw (m + 1) logTij choice
            (fun i t => log_alpha_col (m + 1) logPi logTij o logB t i) k c0.1 c0.2).1).symm
      · rw [if_neg (show ¬ u ≤ k from by omega),
          Function.update_noteq (show u ≠ k + 1 from by omega)]
        exact ((Function.update_noteq (show u ≠ k + 1 from by omega) c0.1
          (specBw (m + 1) logTij choice
            (fun i t => log_alpha_col (m + 1) logPi logTij o logB t i) k c0.1 c0.2).1).trans
          (specBw_high (m + 1) logTij choice
            (fun i t => log_alpha_col (m + 1) logPi logTij o logB t i) k c0.1 c0.2 u
            (by omega))).symm

/-- Claim C9: on a length-1 observation sequence the forward recursion and
the backward loop are both skipped (the fold runs over the empty list, so no
`t-1` column is ever formed) and the single state `s[0]` is drawn directly
from the categorical distribution obtained by normalising `log_alpha`
column 0, i.e. `exp((logPi[i] + log_emission(i,o[0])) - log Σ_k
exp(logPi[k] + log_emission(k,o[0])))`. -/
theorem c9_length_one_direct_draw {α G : Type} (m : ℕ) (logPi : ℕ → ℝ)
    (logTij : ℕ → ℕ → ℝ) (o : ℕ → α) (logB : ℕ → α → ℝ)
    (choice : G → (ℕ → ℝ) → ℕ × G) (g : G) :
    sampleHiddenStateTrajectory (m + 1) logPi logTij o logB choice 1 g
      = (Function.update (fun _ => 0) 0
          (choice g (fun i => Real.exp ((logPi i + logB i (o 0))
            - Real.log (∑ k ∈ Finset.range (m + 1),
                Real.exp (logPi k + logB k (o 0)))))).1,
         (choice g (fun i => Real.exp ((logPi i + logB i (o 0))
            - Real.log (∑ k ∈ Finset.range (m + 1),
                Real.exp (logPi k + logB k (o 0)))))).2) := by
  rw [shst_succ]
  simp only [List.range_zero, List.reverse_nil, List.foldl_nil]
  have hp : (fun i => Real.exp (log_alpha_col (m + 1) logPi logTij o logB 0 i
        - logsumexp (m + 1) fun j => log_alpha_col (m + 1) logPi logTij o logB 0 j))
      = fun i => Real.exp (log_alpha_col (m + 1) logPi logTij o logB 0 i
        - Real.log (∑ j ∈ Finset.range (m + 1),
            Real.exp (log_alpha_col (m + 1) logPi logTij o logB 0 j))) := pvec_eq m _
  rw [hp]
  rfl

noncomputable section FloatModel

/-- IEEE-754 double as numpy sees it in the degenerate-likelihood path:
`nan`, the two infinities, and finite values carried as reals. -/
inductive FP where
  | nan : FP
  | neginf : FP
  | posinf : FP
  | fin : ℝ → FP

/-- IEEE addition restricted to the values above: `nan` propagates,
`-inf + inf = nan`, infinities absorb finite values. -/
def fpAdd : FP → FP → FP
  | .nan, _ => .nan
  | _, .nan => .nan
  | .neginf, .posinf => .nan
  | .posinf, .neginf => .nan
  | .neginf, _ => .neginf
  | _, .neginf => .neginf
  | .posinf, _ => .posinf
  | _, .posinf => .posinf
  | .fin a, .fin b => .fin (a + b)

/-- IEEE negation. -/
def fpNeg : FP → FP
  | .nan => .nan
  | .neginf => .posinf
  | .posinf => .neginf
  | .fin a => .fin (-a)

/-- IEEE subtraction, `a - b = a + (-b)`; in particular
`-inf - (-inf) = nan`. -/
def fpSub (a b : FP) : FP := fpAdd a (fpNeg b)

/-- IEEE `exp`: `exp(nan) = nan`, `exp(-inf) = 0`, `exp(inf) = inf`. -/
def fpExp : FP → FP
  | .nan => .nan
  | .neginf => .fin 0
  | .posinf => .posinf
  | .fin a => .fin (Real.exp a)

/-- IEEE `log` on the values this model meets: `log(nan) = nan`,
`log(-inf) = nan` (negative argument), `log(inf) = inf`, `log 0 = -inf`,
`log` of a negative real is `nan`. -/
def fpLog : FP → FP
  | .nan => .nan
  | .neginf => .nan
  | .posinf => .posinf
  | .fin a => if a = 0 then .neginf else if a < 0 then .nan else .fin (Real.log a)

/-- numpy pairwise maximum (`nan` propagates, as in `ndarray.max`). -/
def fpMax2 : FP → FP → FP
  | .nan, _ => .nan
  | _, .nan => .nan
  | .posinf, _ => .posinf
  | _, .posinf => .posinf
  | .neginf, b => b
  | a, .neginf => a
  | .fin a, .fin b => .fin (max a b)

/-- `a.max()` over the entries `v 0 .. v k`. -/
def fpMax (v : ℕ → FP) : ℕ → FP
  | 0 => v 0
  | k + 1 => fpMax2 (fpMax v k) (v (k + 1))

/-- `np.sum` of the first `n` entries of `v`, accumulated from `0.0`. -/
def fpSum (v : ℕ → FP) : ℕ → FP
  | 0 => .fin 0
  | k + 1 => fpAdd (fpSum v k) (v k)

/-- `scipy.misc.logsumexp` of the length-`n` vector `v` in float
semantics: `a_max = a.max(); out = log(sum(exp(a - a_max))); out += a_max`.
When every entry is `-inf`, `a - a_max = nan`, so the result is `nan`. -/
def fpLogsumexp (n : ℕ) (v : ℕ → FP) : FP :=
  fpAdd (fpLog (fpSum (fun i => fpExp (fpSub (v i) (fpMax v (n - 1)))) n))
    (fpMax v (n - 1))

/-- Column 0 of the forward matrix in float semantics, as the code computes
it: `log_alpha_it[i,0] = logPi[i] + log_emission(i, o_t[0])`. -/
def forwardColZeroFP (logPi logE : ℕ → FP) : ℕ → FP :=
  fun i => fpAdd (logPi i) (logE i)

/-- The probability vector `p_i = np.exp(log_p_i -
logsumexp(log_alpha_it[:,T-1]))` that `BHMM._sampleHiddenStateTrajectory`
passes to `np.random.choice` for the final-state draw, in float semantics.
The code computes it unconditionally: there is no degenerate-likelihood
check anywhere on the path from the forward pass to the draw. -/
def pFinalFP (nstates : ℕ) (la_last : ℕ → FP) : ℕ → FP :=
  fun i => fpExp (fpSub (la_last i) (fpLogsumexp nstates la_last))

end FloatModel

/-- Claim C2 evaluation at the failing input: two states, a length-1
observation sequence whose observation has zero emission likelihood under
both states (`log_emission = -inf`, finite `logPi = 0`).  Every forward
log-probability at the (only and final) time step is `-inf`, and the code
produces the probability vector `[nan, nan]` for `np.random.choice`: the
NaN from `-inf - logsumexp(-inf,-inf)` propagates into the normalised
vector, and no degenerate-likelihood error is raised anywhere on this path
(the embedded path is a total function with no error outcome, exactly like
the source, which contains no check and no `raise`). -/
theorem c2_degenerate_all_nan :
    forwardColZeroFP (fun _ => FP.fin 0) (fun _ => FP.neginf) 0 = FP.neginf
    ∧ forwardColZeroFP (fun _ => FP.fin 0) (fun _ => FP.neginf) 1 = FP.neginf
    ∧ pFinalFP 2 (forwardColZeroFP (fun _ => FP.fin 0) (fun _ => FP.neginf)) 0 = FP.nan
    ∧ pFinalFP 2 (forwardColZeroFP (fun _ => FP.fin 0) (fun _ => FP.neginf)) 1 = FP.nan :=
  ⟨rfl, rfl, rfl, rfl⟩

section Gibbs

/-- The mutable HMM model object.  `core` stands for everything the three
Gibbs substeps read and replace through the external collaborators
(`Tij`, `logPi`/`logTij`, the output-model parameters).  The two trajectory
attributes are distinct, exactly as in the Python object:
`hidden_state_trajectories` (plural) is the attribute
`BHMM._updateHiddenStateTrajectories` assigns, while
`hidden_state_trajectory` (singular) is the separate attribute
`BHMM.sample` assigns `None` to on a snapshot (in Python, assigning an
attribute that does not exist simply creates it). -/
structure Model (κ : Type) where
  core : κ
  hidden_state_trajectories : Option (List (List ℕ))
  hidden_state_trajectory : Option (List (List ℕ))

/-- The sampler's mutable world: the stored observation sequences, the live
model, and the state of the ambient `np.random` generator (`rng`), which
every random draw reads and advances. -/
structure BHMMState (κ O R : Type) where
  observations : List O
  model : Model κ
  rng : R

/-- The external collaborators of `BHMM`, abstracted: the per-sequence FFBS
draw (`_sampleHiddenStateTrajectory`, reading the model core and the
generator), the output-model parameter resampling
(`output_model.sample` on the observations grouped by state), and the
reversible transition-matrix sampler (`TransitionMatrixSamplerRev.sample`
on the model's count matrix). -/
structure Collaborators (κ O R : Type) where
  sampleTraj : κ → O → R → List ℕ × R
  emissionSample : List O → Model κ → R → κ × R
  tijSample : Model κ → R → κ × R

variable {κ O R : Type}

/-- The `for trajectory_index in range(self.ntrajectories)` loop of
`BHMM._updateHiddenStateTrajectories`: sample one trajectory per
observation sequence against the frozen core, appending in order and
threading the generator. -/
def sampleTrajectoriesLoop (sampleTraj : κ → O → R → List ℕ × R) (c : κ) :
    List O → List (List ℕ) → R → List (List ℕ) × R
  | [], acc, r => (acc, r)
  | ob :: obs, acc, r =>
      let tr := sampleTraj c ob r
      sampleTrajectoriesLoop sampleTraj c obs (acc ++ [tr.1]) tr.2

/-- `BHMM._updateHiddenStateTrajectories`: replaces
`model.hidden_state_trajectories` with a freshly sampled list, one
trajectory per observation sequence. -/
def updateHiddenStateTrajectories (E : Collaborators κ O R) (s : BHMMState κ O R) :
    BHMMState κ O R :=
  let res := sampleTrajectoriesLoop E.sampleTraj s.model.core s.observations [] s.rng
  { s with model := { s.model with hidden_state_trajectories := some res.1 },
           rng := res.2 }

/-- `BHMM._updateEmissionProbabilities`: the output model resamples its own
parameters from the observations grouped by the newly assigned states. -/
def updateEmissionProbabilities (E : Collaborators κ O R) (s : BHMMState κ O R) :
    BHMMState κ O R :=
  let res := E.emissionSample s.observations s.model s.rng
  { s with model := { s.model with core := res.1 }, rng := res.2 }

/-- The message of the exception `BHMM._updateTransitionMatrix` raises when
`reversible` is false. -/
def nonreversibleMsg : String :=
  "Non-reversible transition matrix sampling not yet implemented."

/-- `BHMM._updateTransitionMatrix`: in the reversible case delegate to the
external sampler and store the result; otherwise raise. -/
def updateTransitionMatrix (E : Collaborators κ O R) (reversible : Bool)
    (s : BHMMState κ O R) : Except String (BHMMState κ O R) :=
  if reversible = true then
    let res := E.tijSample s.model s.rng
    Except.ok { s with model := { s.model with core := res.1 }, rng := res.2 }
  else
    Except.error nonreversibleMsg

/-- `BHMM._update`: one Gibbs sweep — trajectories, then emission
parameters, then the transition matrix. -/
def update (E : Collaborators κ O R) (reversible : Bool) (s : BHMMState κ O R) :
    Except String (BHMMState κ O R) :=
  updateTransitionMatrix E reversible
    (updateEmissionProbabilities E (updateHiddenStateTrajectories E s))

/-- The sweep in the reversible case, where no step can raise. -/
def updatePure (E : Collaborators κ O R) (s : BHMMState κ O R) : BHMMState κ O R :=
  let s2 := updateEmissionProbabilities E (updateHiddenStateTrajectories E s)
  let res := E.tijSample s2.model s2.rng
  { s2 with model := { s2.model with core := res.1 }, rng := res.2 }

/-- `n` consecutive `self._update()` calls (a `for` loop over sweeps). -/
def sweepN (E : Collaborators κ O R) (reversible : Bool) :
    ℕ → BHMMState κ O R → Except String (BHMMState κ O R)
  | 0, s => Except.ok s
  | n + 1, s => (update E reversible s).bind (sweepN E reversible n)

/-- The snapshot taken in `BHMM.sample` after `model_copy =
copy.deepcopy(self.model)`: `deepcopy` yields an object graph sharing
nothing with the live model, so the snapshot is the model value itself;
when `save_hidden_state_trajectory` is false the code then assigns `None`
to the snapshot's `hidden_state_trajectory` (singular) attribute. -/
def snapshotModel (save_hidden_state_trajectory : Bool) (m : Model κ) : Model κ :=
  if save_hidden_state_trajectory = true then m
  else { m with hidden_state_trajectory := none }

/-- The collection loop of `BHMM.sample`: for each of `n` retained samples,
run `nthin` sweeps, snapshot, append. -/
def collectLoop (E : Collaborators κ O R) (reversible : Bool)
    (save_hidden_state_trajectory : Bool) (nthin : ℕ) :
    ℕ → BHMMState κ O R → List (Model κ) →
      Except String (BHMMState κ O R × List (Model κ))
  | 0, s, models => Except.ok (s, models)
  | n + 1, s, models =>
      (sweepN E reversible nthin s).bind fun s2 =>
        collectLoop E reversible save_hidden_state_trajectory nthin n s2
          (models ++ [snapshotModel save_hidden_state_trajectory s2.model])

/-- `BHMM.sample(nsamples, nburn, nthin, save_hidden_state_trajectory)`:
`nburn` discarded sweeps, then the collection loop starting from an empty
list. -/
def sample (E : Collaborators κ O R) (reversible : Bool) (s : BHMMState κ O R)
    (nsamples : ℕ) (nburn : ℕ) (nthin : ℕ) (save_hidden_state_trajectory : Bool) :
    Except String (BHMMState κ O R × List (Model κ)) :=
  (sweepN E reversible nburn s).bind fun sb =>
    collectLoop E reversible save_hidden_state_trajectory nthin nsamples sb []

/-- In the reversible case a sweep never raises. -/
lemma sweepN_reversible (E : Collaborators κ O R) :
    ∀ (k : ℕ) (s : BHMMState κ O R),
      sweepN E true k s = Except.ok ((updatePure E)^[k] s) := by
  intro k
  induction k with
  | zero => intro s; rfl
  | succ k ih =>
      intro s
      show (update E true s).bind (sweepN E true k) = _
      have hu : update E true s = Except.ok (updatePure E s) := rfl
      rw [hu]
      show sweepN E true k (updatePure E s) = _
      rw [ih (updatePure E s), Function.iterate_succ_apply]

/-- Closed form of the collection loop in the reversible case. -/
lemma collectLoop_reversible (E : Collaborators κ O R) (save : Bool) (nt : ℕ) :
    ∀ (n : ℕ) (s : BHMMState κ O R) (models : List (Model κ)),
      collectLoop E true save nt n s models
        = Except.ok ((updatePure E)^[n * nt] s,
            models ++ (List.range n).map
              (fun i => snapshotModel save (((updatePure E)^[(i + 1) * nt]) s).model)) := by
  intro n
  induction n with
  | zero =>
      intro s models
      simp [collectLoop]
  | succ n ih =>
      intro s models
      have hstep : collectLoop E true save nt (n + 1) s models
          = collectLoop E true save nt n ((updatePure E)^[nt] s)
              (models ++ [snapshotModel save (((updatePure E)^[nt]) s).model]) := by
        show (sweepN E true nt s).bind _ = _
        rw [sweepN_reversible E nt s]
        rfl
      rw [hstep, ih]
      have hit : (updatePure E)^[n * nt] ((updatePure E)^[nt] s)
          = (updatePure E)^[(n + 1) * nt] s := by
        rw [← Function.iterate_add_apply, show n * nt + nt = (n + 1) * nt from by ring]
      have hmap : (List.range n).map
            (fun i => snapshotModel save
              (((updatePure E)^[(i + 1) * nt]) ((updatePure E)^[nt] s)).model)
          = (List.range n).map
            (fun i => snapshotModel save (((updatePure E)^[(i + 2) * nt]) s).model) := by
        refine List.map_congr_left fun i _ => ?_
        rw [← Function.iterate_add_apply, show (i + 1) * nt + nt = (i + 2) * nt from by ring]
      rw [hit, hmap]
      congr 1
      rw [List.range_succ_eq_map, List.map_cons, List.map_map, List.append_assoc,
        List.singleton_append]
      have htail : (List.range n).map
            ((fun i => snapshotModel save (((updatePure E)^[(i + 1) * nt]) s).model)
              ∘ Nat.succ)
          = (List.range n).map
            (fun i => snapshotModel save (((updatePure E)^[(i + 2) * nt]) s).model) := by
        refine List.map_congr_left fun i _ => ?_
        show snapshotModel save (((updatePure E)^[(i + 1 + 1) * nt]) s).model = _
        rw [show (i + 1 + 1) * nt = (i + 2) * nt from by ring]
      rw [htail, show (0 + 1) * nt = nt from by ring]

/-- Closed form of `BHMM.sample` in the reversible case: `nburn` sweeps are
run and discarded, and the `i`-th retained snapshot (0-based) is the model
after `nburn + (i+1)*nthin` sweeps in total. -/
lemma sample_reversible (E : Collaborators κ O R) (save : Bool)
    (nsamples nburn nt : ℕ) (s : BHMMState κ O R) :
    sample E true s nsamples nburn nt save
      = Except.ok ((updatePure E)^[nburn + nsamples * nt] s,
          (List.range nsamples).map
            (fun i => snapshotModel save
              (((updatePure E)^[nburn + (i + 1) * nt]) s).model)) := by
  show (sweepN E true nburn s).bind _ = _
  rw [sweepN_reversible E nburn s]
  show collectLoop E true save nt nsamples ((updatePure E)^[nburn] s) [] = _
  rw [collectLoop_reversible E save nt nsamples ((updatePure E)^[nburn] s) []]
  rw [List.nil_append]
  have hit : (updatePure E)^[nsamples * nt] ((updatePure E)^[nburn] s)
      = (updatePure E)^[nburn + nsamples * nt] s := by
    rw [← Function.iterate_add_apply, show nsamples * nt + nburn = nburn + nsamples * nt
      from by ring]
  have hmap : (List.range nsamples).map
        (fun i => snapshotModel save
          (((updatePure E)^[(i + 1) * nt]) ((updatePure E)^[nburn] s)).model)
      = (List.range nsamples).map
        (fun i => snapshotModel save (((updatePure E)^[nburn + (i + 1) * nt]) s).model) := by
    refine List.map_congr_left fun i _ => ?_
    rw [← Function.iterate_add_apply, show (i + 1) * nt + nburn = nburn + (i + 1) * nt
      from by ring]
  rw [hit, hmap]

end Gibbs

/-- Claim C5: for all `nsamples`, `nburn` and positive `nthin = nt+1`,
`BHMM.sample` (reversible case, so no sweep raises) first runs exactly
`nburn` discarded sweeps, then for the `i`-th retained sample runs `nthin`
further sweeps and snapshots the model after the last one — the `i`-th
returned snapshot is the model after `nburn + (i+1)*nthin` sweeps, so no
burn-in model (at most `nburn` sweeps) is ever returned; the result has
exactly `nsamples` snapshots in order, and `sample(nsamples=0, nburn=0)`
returns the empty list. -/
theorem c5_sample_loop_counts (κ O R : Type) (E : Collaborators κ O R) (save : Bool)
    (nsamples nburn nt : ℕ) (s : BHMMState κ O R) :
    (sample E true s nsamples nburn (nt + 1) save
      = Except.ok ((updatePure E)^[nburn + nsamples * (nt + 1)] s,
          (List.range nsamples).map
            (fun i => snapshotModel save
              (((updatePure E)^[nburn + (i + 1) * (nt + 1)]) s).model)))
    ∧ ((sample E true s nsamples nburn (nt + 1) save).map (fun r => r.2.length)
        = Except.ok nsamples)
    ∧ sample E true s 0 0 (nt + 1) save = Except.ok (s, []) := by
  refine ⟨sample_reversible E save nsamples nburn (nt + 1) s, ?_, ?_⟩
  · rw [sample_reversible E save nsamples nburn (nt + 1) s]
    show Except.ok (((List.range nsamples).map _).length) = _
    rw [List.length_map, List.length_range]
  · rw [sample_reversible E save 0 0 (nt + 1) s,
      show 0 + 0 * (nt + 1) = 0 from by ring, Function.iterate_zero_apply]
    rfl

/-- Claim C6: with `reversible=False` the transition-matrix substep of the
very first Gibbs sweep raises the unsupported-configuration exception, and
any `sample` call that performs at least one sweep (either `nburn ≥ 1`, or
`nsamples ≥ 1` with `nthin ≥ 1`) aborts with that error instead of falling
back to any default transition-matrix sampling. -/
theorem c6_nonreversible_fails_fast (κ O R : Type) (E : Collaborators κ O R)
    (s : BHMMState κ O R) :
    (update E false s = Except.error nonreversibleMsg)
    ∧ (∀ (nsamples nburn nthin : ℕ) (save : Bool),
        sample E false s nsamples (nburn + 1) nthin save
          = Except.error nonreversibleMsg)
    ∧ (∀ (nsamples nt : ℕ) (save : Bool),
        sample E false s (nsamples + 1) 0 (nt + 1) save
          = Except.error nonreversibleMsg) :=
  ⟨rfl, fun _ _ _ _ => rfl, fun _ _ _ => rfl⟩

/-- Claim C8: snapshots are decoupled from all later sweeps.  `deepcopy` is
embedded as a value copy (the Python call builds an object graph sharing
nothing with the live model), so extending a run by `k` further retained
samples — hence `k*nthin` further sweeps mutating the live model — leaves
the first `n` returned snapshots exactly as the shorter run returned them;
no later sweep or `sample` call can change a snapshot already taken. -/
theorem c8_snapshot_isolation (κ O R : Type) (E : Collaborators κ O R) (save : Bool)
    (n k nburn nt : ℕ) (s : BHMMState κ O R) :
    (sample E true s (n + k) nburn (nt + 1) save).map (fun r => r.2.take n)
      = (sample E true s n nburn (nt + 1) save).map (fun r => r.2) := by
  rw [sample_reversible E save (n + k) nburn (nt + 1) s,
    sample_reversible E save n nburn (nt + 1) s]
  show Except.ok (((List.range (n + k)).map _).take n) = _
  rw [← List.map_take, List.take_range]
  have hmin : min n (n + k) = n := by omega
  rw [hmin]
  rfl

/-- Claim C1 evaluated at a failing input (`nsamples=1, nburn=0, nthin=1,
save_hidden_state_trajectory=False`, one observation sequence, every
collaborator trivial): the returned snapshot still carries the full
`hidden_state_trajectories` (plural) produced during the sweep —
`some [[0]]`, not cleared — because the code assigns `None` to the distinct
singular attribute `hidden_state_trajectory` instead. -/
theorem c1_snapshot_keeps_trajectories :
    (sample (⟨fun _ _ r => ([0], r), fun _ m r => (m.core, r), fun m r => (m.core, r)⟩ :
        Collaborators Unit Unit Unit)
      true ⟨[()], ⟨(), none, none⟩, ()⟩ 1 0 1 false).map
        (fun r => r.2.map (fun mm =>
          (mm.hidden_state_trajectories, mm.hidden_state_trajectory)))
      = Except.ok [(some [[0]], none)] := rfl

/-- `bhmm.init.api.generate_initial_model`: dispatch on the
`output_model_type` string.  The two initializers
(`bhmm.init.discrete.initial_model_discrete`,
`bhmm.init.gaussian.initial_model_gaussian1d`) live outside the embedded
module and are passed as opaque functions of the observations and the
state count (their remaining keyword arguments are fixed constants at this
call site). -/
def generate_initial_model {M O : Type} (initDiscrete initGaussian : List O → ℕ → M)
    (observations : List O) (nstates : ℕ) (output_model_type : String) :
    Except String M :=
  if output_model_type = "discrete" then
    Except.ok (initDiscrete observations nstates)
  else if output_model_type = "gaussian" then
    Except.ok (initGaussian observations nstates)
  else
    Except.error ("output model type " ++ output_model_type ++ " not yet implemented.")

/-- Claim C10: for every tag other than `"discrete"` and `"gaussian"`,
`generate_initial_model` raises `NotImplementedError` (embedded as the
error value with the exception's message) without invoking either
initializer — the result is the same error for every pair of initializer
functions; for exactly those two tags it delegates to the corresponding
initializer. -/
theorem c10_generate_initial_model_dispatch (tag : String)
    (h1 : tag ≠ "discrete") (h2 : tag ≠ "gaussian") :
    (∀ (M O : Type) (d g : List O → ℕ → M) (observations : List O) (nstates : ℕ),
        generate_initial_model d g observations nstates tag
          = Except.error ("output model type " ++ tag ++ " not yet implemented."))
    ∧ (∀ (M O : Type) (d g : List O → ℕ → M) (observations : List O) (nstates : ℕ),
        generate_initial_model d g observations nstates "discrete"
          = Except.ok (d observations nstates))
    ∧ (∀ (M O : Type) (d g : List O → ℕ → M) (observations : List O) (nstates : ℕ),
        generate_initial_model d g observations nstates "gaussian"
          = Except.ok (g observations nstates)) := by
  refine ⟨?_, ?_, ?_⟩
  · intro M O d g observations nstates
    show (if tag = "discrete" then _ else _) = _
    rw [if_neg h1, if_neg h2]
  · intro M O d g observations nstates
    rfl
  · intro M O d g observations nstates
    rfl

/-- Witness for C10 at the concrete tag `"foo"`. -/
theorem c10_generate_initial_model_dispatch_witness :
    ("foo" : String) ≠ "discrete" ∧ ("foo" : String) ≠ "gaussian" ∧
      generate_initial_model (fun _ _ => ()) (fun _ _ => ()) ([] : List Unit) 0 "foo"
        = Except.error ("output model type " ++ "foo" ++ " not yet implemented.") :=
  ⟨by decide, by decide,
    (c10_generate_initial_model_dispatch "foo" (by decide) (by decide)).1
      Unit Unit (fun _ _ => ()) (fun _ _ => ()) [] 0⟩

end BHMMSpec
